import Mathlib

/-!
# Verification of the wordle-cli core (guess evaluation and game state machine)

Shallow embedding of the game logic of `src/main.rs` and `src/ui.rs`:
the `Spot`/`LetterStatus` data model, the evaluator `get_spots`, the
alphabet-summary update and `letter_to_index`, and the key-event loop of
`run_app` as a step function on an explicit `App` state.  Strings are
modelled as `List Char`; Rust's byte-oriented `String::len` and
`str::as_bytes` are modelled through an explicit UTF-8 encoder so that the
byte/character distinction of the source is preserved.
-/

namespace Wordle

/-- `LetterStatus` from `src/main.rs`. -/
inductive LetterStatus where
  | Correct
  | Incorrect
  | NotInWord
deriving DecidableEq, Repr

/-- `Spot` from `src/main.rs`: a letter paired with its status. -/
structure Spot where
  letter : Char
  status : LetterStatus
deriving DecidableEq, Repr

/-- `impl Default for Spot`: letter `'\0'`, status `NotInWord`. -/
def Spot.default : Spot := ⟨Char.ofNat 0, LetterStatus.NotInWord⟩

/-- `Spot::correct`. -/
def Spot.correct (letter : Char) : Spot := ⟨letter, LetterStatus.Correct⟩

/-- `Spot::incorrect`. -/
def Spot.incorrect (letter : Char) : Spot := ⟨letter, LetterStatus.Incorrect⟩

/-- `Spot::not_in_word`. -/
def Spot.not_in_word (letter : Char) : Spot := ⟨letter, LetterStatus.NotInWord⟩

/-- The `ALPHABETS` constant from `src/main.rs`. -/
def ALPHABETS : List Char :=
  ['A', 'B', 'C', 'D', 'E', 'F', 'G', 'H', 'I', 'J', 'K', 'L', 'M', 'N', 'O', 'P',
   'Q', 'R', 'S', 'T', 'U', 'V', 'W', 'X', 'Y', 'Z']

/-- Rust `char::to_ascii_uppercase`: maps `'a'..'z'` to `'A'..'Z'`, leaves
every other character unchanged. -/
def to_ascii_uppercase (c : Char) : Char :=
  if 97 ≤ c.toNat ∧ c.toNat ≤ 122 then Char.ofNat (c.toNat - 32) else c

/-- Model of the alphabetic test used by `letter_to_index`.  Rust's
`char::is_alphabetic` covers all Unicode letters; every input the claims
range over (and every character a played game produces from the ASCII
word lists) is ASCII, where the two predicates agree, so the ASCII
fragment is modelled. -/
def is_alphabetic (c : Char) : Bool :=
  decide ((65 ≤ c.toNat ∧ c.toNat ≤ 90) ∨ (97 ≤ c.toNat ∧ c.toNat ≤ 122))

/-- `letter_to_index` from `src/ui.rs`: zero-based index of a letter in the
English alphabet, `none` for non-letters.  The source computes
`(letter.to_ascii_uppercase() as u8 - b'A') as usize`. -/
def letter_to_index (letter : Char) : Option Nat :=
  if is_alphabetic letter then
    some ((to_ascii_uppercase letter).toNat - 65)
  else
    none

/-- UTF-8 encoding of a single scalar value, as a list of byte values;
models the byte view `str::as_bytes` of a Rust `String`. -/
def utf8EncodeCharNat (c : Char) : List Nat :=
  let v := c.toNat
  if v < 128 then [v]
  else if v < 2048 then [192 + v / 64, 128 + v % 64]
  else if v < 65536 then [224 + v / 4096, 128 + (v / 64) % 64, 128 + v % 64]
  else [240 + v / 262144, 128 + (v / 4096) % 64, 128 + (v / 64) % 64, 128 + v % 64]

/-- The UTF-8 bytes of a string (`str::as_bytes`). -/
def utf8Bytes (s : List Char) : List Nat :=
  (s.map utf8EncodeCharNat).flatten

/-- Rust `String::len`: the length in UTF-8 bytes, not characters. -/
def utf8Len (s : List Char) : Nat :=
  (utf8Bytes s).length

/-- `word.as_bytes()[index] as char` from `get_spots`.  The source would
panic out of bounds; every call site keeps `index` below the byte length
of the 5-character secret, so the default value is never consulted. -/
def byteAsChar (word : List Char) (index : Nat) : Char :=
  Char.ofNat ((utf8Bytes word).getD index 0)

/-- `get_spots` from `src/ui.rs`: starts from five default spots and, for
each `(index, letter)` of the input, writes `Spot::correct` when the
letter equals the secret's byte at that position, `Spot::incorrect` when
the secret contains the letter anywhere, and `Spot::not_in_word`
otherwise. -/
def get_spots (input word : List Char) : List Spot :=
  (input.enum).foldl
    (fun spots p =>
      if p.2 = byteAsChar word p.1 then
        spots.set p.1 (Spot.correct p.2)
      else if p.2 ∈ word then
        spots.set p.1 (Spot.incorrect p.2)
      else
        spots.set p.1 (Spot.not_in_word p.2))
    (List.replicate 5 Spot.default)

/-- The app state of `src/ui.rs` (`struct App`), together with the local
`win` flag of `run_app`, which is loop state in the source. -/
structure App where
  input : List Char
  message : Option String
  guesses : List (List Spot)
  alphabet_statuses : List (Option LetterStatus)
  attempts : Nat
  word : List Char
  allowed_guesses : List (List Char)
  index : Nat
  win : Bool
deriving DecidableEq, Repr

/-- `App::new`. -/
def App.new (word : List Char) (allowed_guesses : List (List Char)) (index : Nat) : App :=
  { input := []
    message := none
    guesses := []
    alphabet_statuses := List.replicate 26 none
    attempts := 0
    word := word
    allowed_guesses := allowed_guesses
    index := index
    win := false }

/-- The per-spot summary update of `run_app`:
`alphabet_statuses[letter_to_index(spot.letter).unwrap_or_default()] = Some(spot.status)`. -/
def merge_spot (statuses : List (Option LetterStatus)) (s : Spot) :
    List (Option LetterStatus) :=
  statuses.set ((letter_to_index s.letter).getD 0) (some s.status)

/-- The `for spot in spots` summary-update loop of `run_app`. -/
def merge_spots (statuses : List (Option LetterStatus)) (spots : List Spot) :
    List (Option LetterStatus) :=
  spots.foldl merge_spot statuses

/-- The rejection message set by `run_app` on an invalid submission. -/
def invalidMessage : String := "Not a valid five letter word. Try again... "

/-- The `KeyCode::Enter` branch of `run_app`: reject when the input's byte
length is not 5 or the input is not an allowed guess; otherwise clear the
message, evaluate, record the guess, count the attempt, and either set the
win flag (leaving input and summary untouched, as the source `continue`s
before reaching them) or merge the spots and clear the input. -/
def submit (a : App) : App :=
  if utf8Len a.input ≠ 5 ∨ a.input ∉ a.allowed_guesses then
    { a with message := some invalidMessage }
  else
    let spots := get_spots a.input a.word
    let a1 := { a with
      message := none
      guesses := a.guesses ++ [spots]
      attempts := a.attempts + 1 }
    if a.input = a.word then
      { a1 with win := true }
    else
      { a1 with
        alphabet_statuses := merge_spots a1.alphabet_statuses spots
        input := [] }

/-- Key events, as consumed by the `match key.code` of `run_app`. -/
inductive Key where
  | enter
  | char (c : Char)
  | backspace
  | esc
  | other
deriving DecidableEq, Repr

/-- One iteration of the `run_app` event loop on a key event.  In a
terminal state (`app.attempts == 6 || win`) the source either copies the
result or returns, in both cases leaving the state unchanged; `Esc` and
unhandled keys also leave the state unchanged. -/
def step (a : App) (k : Key) : App :=
  if a.attempts = 6 ∨ a.win = true then a
  else
    match k with
    | Key.enter => submit a
    | Key.char c => { a with input := a.input ++ [to_ascii_uppercase c] }
    | Key.backspace => { a with input := a.input.dropLast }
    | Key.esc => a
    | Key.other => a

/-- Running the event loop over a list of key events. -/
def run (a : App) (ks : List Key) : App := ks.foldl step a

/-- The three phases of the game, as the source distinguishes them at the
top of the loop: `win` shows the success screen, `attempts == 6` the loss
screen, anything else the in-progress game. -/
inductive Phase where
  | InProgress
  | Won
  | Lost
deriving DecidableEq, Repr

/-- The phase of an app state. -/
def phase (a : App) : Phase :=
  if a.win then Phase.Won
  else if a.attempts = 6 then Phase.Lost
  else Phase.InProgress

/-- `emoji_from_status` from `src/ui.rs`. -/
def emoji_from_status : LetterStatus → Char
  | LetterStatus.Correct => '🟩'
  | LetterStatus.Incorrect => '🟨'
  | LetterStatus.NotInWord => '⬛'

/-- `result_text_spans` from `src/ui.rs`: the header line
`Wordle <index+1> <attempts>/6` followed by one row of emoji per guess,
each row mapping the guess's spots positionally. -/
def result_text_spans (a : App) : List (List Char) :=
  ("Wordle " ++ toString (a.index + 1) ++ " " ++ toString a.attempts ++ "/6").toList
    :: a.guesses.map (fun g => g.map (fun s => emoji_from_status s.status))

/-- The clipboard text assembled by the `KeyCode::Char('c')` branch of
`run_app`: every row of `result_text_spans` followed by a newline, with an
extra newline after the first row. -/
def copy_text (a : App) : List Char :=
  ((result_text_spans a).enum.map
    (fun p => p.2 ++ ['\n'] ++ (if p.1 = 0 then ['\n'] else []))).flatten

/-- Helper: the spot value written by one iteration of the `get_spots`
loop for position `index` carrying `letter`. -/
def mk_spot (word : List Char) (index : Nat) (letter : Char) : Spot :=
  if letter = byteAsChar word index then Spot.correct letter
  else if letter ∈ word then Spot.incorrect letter
  else Spot.not_in_word letter

/-- App states reachable by running the event loop from `App::new`. -/
inductive Reachable (word : List Char) (allowed : List (List Char)) (idx : Nat) : App → Prop where
  | init : Reachable word allowed idx (App.new word allowed idx)
  | step {a : App} (h : Reachable word allowed idx a) (k : Key) :
      Reachable word allowed idx (Wordle.step a k)

/-! ## Supporting lemmas -/

lemma char_toNat_ofNat {n : Nat} (h : n < 55296) : (Char.ofNat n).toNat = n := by
  have hv : n.isValidChar := Or.inl h
  rw [Char.ofNat, dif_pos hv]
  simp [Char.ofNatAux, Char.toNat, UInt32.toNat, UInt32.ofNat']

lemma list_len5 {α : Type} {l : List α} (h : l.length = 5) :
    ∃ a b c d e, l = [a, b, c, d, e] := by
  rcases l with _ | ⟨a, _ | ⟨b, _ | ⟨c, _ | ⟨d, _ | ⟨e, _ | ⟨f, t⟩⟩⟩⟩⟩⟩ <;>
    simp only [List.length] at h <;>
    first
    | omega
    | exact ⟨a, b, c, d, e, rfl⟩

lemma get_spots_fun_eq (word : List Char) :
    (fun (spots : List Spot) (p : Nat × Char) =>
      if p.2 = byteAsChar word p.1 then spots.set p.1 (Spot.correct p.2)
      else if p.2 ∈ word then spots.set p.1 (Spot.incorrect p.2)
      else spots.set p.1 (Spot.not_in_word p.2))
      = fun spots p => spots.set p.1 (mk_spot word p.1 p.2) := by
  funext spots p
  by_cases h1 : p.2 = byteAsChar word p.1
  · simp [mk_spot, h1]
  · by_cases h2 : p.2 ∈ word <;> simp [mk_spot, h1, h2]

lemma get_spots_eq (input word : List Char) :
    get_spots input word =
      input.enum.foldl (fun spots p => spots.set p.1 (mk_spot word p.1 p.2))
        (List.replicate 5 Spot.default) := by
  unfold get_spots
  rw [get_spots_fun_eq]

lemma get_spots_five (g0 g1 g2 g3 g4 : Char) (w : List Char) :
    get_spots [g0, g1, g2, g3, g4] w =
      [mk_spot w 0 g0, mk_spot w 1 g1, mk_spot w 2 g2, mk_spot w 3 g3, mk_spot w 4 g4] := by
  rw [get_spots_eq]
  rfl

lemma foldl_set_length {α β : Type} (g : Nat × β → α) :
    ∀ (l : List (Nat × β)) (acc : List α),
      (l.foldl (fun acc p => acc.set p.1 (g p)) acc).length = acc.length := by
  intro l
  induction l with
  | nil => intro acc; rfl
  | cons p l ih =>
      intro acc
      simp only [List.foldl]
      rw [ih]
      simp

lemma get_spots_length (input word : List Char) : (get_spots input word).length = 5 := by
  rw [get_spots_eq, foldl_set_length]
  simp

lemma mk_spot_letter (w : List Char) (i : Nat) (c : Char) : (mk_spot w i c).letter = c := by
  unfold mk_spot
  by_cases h1 : c = byteAsChar w i
  · simp [h1, Spot.correct]
  · by_cases h2 : c ∈ w <;> simp [h1, h2, Spot.incorrect, Spot.not_in_word]

/-! ## C8: idempotence of the summary merge -/

/-- C8: merging the same Spot into the alphabet summary twice in
succession yields the same summary as merging it once (the update is a
plain array write, so repeating it changes nothing). -/
theorem merge_idempotent (statuses : List (Option LetterStatus)) (s : Spot) :
    merge_spot (merge_spot statuses s) s = merge_spot statuses s := by
  unfold merge_spot
  exact List.set_set _ _ _ _

lemma utf8EncodeCharNat_ascii {c : Char} (h : c.toNat < 128) :
    utf8EncodeCharNat c = [c.toNat] := by
  unfold utf8EncodeCharNat
  rw [if_pos h]

lemma utf8Len_ascii {s : List Char} (h : ∀ c ∈ s, c.toNat < 128) :
    utf8Len s = s.length := by
  induction s with
  | nil => rfl
  | cons c s ih =>
      have hc : c.toNat < 128 := h c (List.mem_cons_self c s)
      have ih' : utf8Len s = s.length :=
        ih (fun x hx => h x (List.mem_cons_of_mem c hx))
      simp only [utf8Len, utf8Bytes, List.map_cons, List.flatten_cons,
        utf8EncodeCharNat_ascii hc, List.length_append, List.length_cons,
        List.length_nil] at ih' ⊢
      omega

lemma utf8Bytes_five_ascii {s0 s1 s2 s3 s4 : Char}
    (h0 : s0.toNat < 128) (h1 : s1.toNat < 128) (h2 : s2.toNat < 128)
    (h3 : s3.toNat < 128) (h4 : s4.toNat < 128) :
    utf8Bytes [s0, s1, s2, s3, s4] =
      [s0.toNat, s1.toNat, s2.toNat, s3.toNat, s4.toNat] := by
  simp [utf8Bytes, utf8EncodeCharNat_ascii, h0, h1, h2, h3, h4]

lemma byteAsChar_five_ascii {s0 s1 s2 s3 s4 : Char}
    (h0 : s0.toNat < 128) (h1 : s1.toNat < 128) (h2 : s2.toNat < 128)
    (h3 : s3.toNat < 128) (h4 : s4.toNat < 128) :
    byteAsChar [s0, s1, s2, s3, s4] 0 = s0 ∧
    byteAsChar [s0, s1, s2, s3, s4] 1 = s1 ∧
    byteAsChar [s0, s1, s2, s3, s4] 2 = s2 ∧
    byteAsChar [s0, s1, s2, s3, s4] 3 = s3 ∧
    byteAsChar [s0, s1, s2, s3, s4] 4 = s4 := by
  unfold byteAsChar
  rw [utf8Bytes_five_ascii h0 h1 h2 h3 h4]
  refine ⟨?_, ?_, ?_, ?_, ?_⟩ <;> simp [Char.ofNat_toNat]

lemma is_alphabetic_iff {c : Char} :
    is_alphabetic c = true ↔
      (65 ≤ c.toNat ∧ c.toNat ≤ 90) ∨ (97 ≤ c.toNat ∧ c.toNat ≤ 122) := by
  unfold is_alphabetic
  exact decide_eq_true_iff

lemma to_ascii_uppercase_bounds {c : Char} (h : is_alphabetic c = true) :
    65 ≤ (to_ascii_uppercase c).toNat ∧ (to_ascii_uppercase c).toNat ≤ 90 := by
  rcases is_alphabetic_iff.mp h with hu | hl
  · unfold to_ascii_uppercase
    rw [if_neg (by omega)]
    exact hu
  · unfold to_ascii_uppercase
    rw [if_pos (by omega)]
    rw [char_toNat_ofNat (by omega)]
    omega

lemma letter_to_index_alpha {c : Char} (h : is_alphabetic c = true) :
    letter_to_index c = some ((to_ascii_uppercase c).toNat - 65) ∧
    (to_ascii_uppercase c).toNat - 65 < 26 := by
  constructor
  · unfold letter_to_index
    rw [if_pos h]
  · have := to_ascii_uppercase_bounds h
    omega

lemma phase_inProgress_iff {a : App} :
    phase a = Phase.InProgress ↔ ¬(a.attempts = 6 ∨ a.win = true) := by
  unfold phase
  split <;> rename_i hw
  · simp [hw]
  · split <;> rename_i ha
    · simp [ha]
    · simp [ha, hw]

lemma phase_lost_iff {x : App} :
    phase x = Phase.Lost ↔ x.win = false ∧ x.attempts = 6 := by
  unfold phase
  split <;> rename_i hw
  · simp [hw]
  · split <;> rename_i ha
    · simp [ha, hw]
    · simp [ha]

lemma phase_won_iff {x : App} : phase x = Phase.Won ↔ x.win = true := by
  unfold phase
  split <;> rename_i hw
  · simp [hw]
  · split <;> simp [hw]

lemma step_terminal {a : App} (h : a.attempts = 6 ∨ a.win = true) (k : Key) :
    step a k = a := by
  unfold step
  rw [if_pos h]

lemma step_inProgress {a : App} (h : phase a = Phase.InProgress) (k : Key) :
    step a k =
      match k with
      | Key.enter => submit a
      | Key.char c => { a with input := a.input ++ [to_ascii_uppercase c] }
      | Key.backspace => { a with input := a.input.dropLast }
      | Key.esc => a
      | Key.other => a := by
  unfold step
  rw [if_neg (phase_inProgress_iff.mp h)]

lemma submit_valid_eq {a : App} (hlen : utf8Len a.input = 5)
    (hmem : a.input ∈ a.allowed_guesses) :
    submit a =
      (if a.input = a.word then
        { a with
          message := none
          guesses := a.guesses ++ [get_spots a.input a.word]
          attempts := a.attempts + 1
          win := true }
      else
        { a with
          message := none
          guesses := a.guesses ++ [get_spots a.input a.word]
          attempts := a.attempts + 1
          alphabet_statuses :=
            merge_spots a.alphabet_statuses (get_spots a.input a.word)
          input := [] }) := by
  unfold submit
  rw [if_neg (by push_neg; exact ⟨hlen, hmem⟩)]

/-! ## C2: the summary merge is an unconditional overwrite, not monotonic -/

/-- C2 counterexample: with secret `ABBEY`, submitting `AXXXX` records
letter `A` as `Correct` in the alphabet summary, and the subsequent
accepted guess `XAXXX` downgrades `A` to `Incorrect` — the summary update
is not monotonic. -/
theorem summary_monotonic_cx :
    (run (App.new "ABBEY".toList ["AXXXX".toList, "XAXXX".toList] 0)
        [Key.char 'A', Key.char 'X', Key.char 'X', Key.char 'X', Key.char 'X',
         Key.enter]).alphabet_statuses.getD 0 none = some LetterStatus.Correct ∧
    (run (App.new "ABBEY".toList ["AXXXX".toList, "XAXXX".toList] 0)
        [Key.char 'A', Key.char 'X', Key.char 'X', Key.char 'X', Key.char 'X',
         Key.enter,
         Key.char 'X', Key.char 'A', Key.char 'X', Key.char 'X', Key.char 'X',
         Key.enter]).alphabet_statuses.getD 0 none = some LetterStatus.Incorrect := by
  exact ⟨by decide, by decide⟩

/-- C2 (amended): merging a Spot into the alphabet summary writes the
Spot's status into the letter's entry unconditionally — last write wins,
with no precedence rule — and leaves every other entry unchanged; in
particular an entry holding `Correct` is downgraded when a later Spot for
the same letter carries `Incorrect` or `NotInWord`. -/
theorem merge_overwrites (statuses : List (Option LetterStatus)) (s : Spot)
    (hlen : statuses.length = 26) (halpha : is_alphabetic s.letter = true) :
    (merge_spot statuses s).getD ((letter_to_index s.letter).getD 0) none
        = some s.status ∧
    ∀ j : Nat, j ≠ (letter_to_index s.letter).getD 0 →
      (merge_spot statuses s).getD j none = statuses.getD j none := by
  obtain ⟨hidx, hlt⟩ := letter_to_index_alpha halpha
  constructor
  · unfold merge_spot
    rw [hidx]
    simp only [Option.getD_some]
    rw [List.getD_eq_getElem?_getD, List.getElem?_set_self (by omega)]
    rfl
  · intro j hj
    unfold merge_spot
    rw [List.getD_eq_getElem?_getD, List.getD_eq_getElem?_getD,
      List.getElem?_set_ne (fun heq => hj heq.symm)]

/-- C2 witness: merging `Spot('A', NotInWord)` into a summary whose entry
for `A` is `Correct` overwrites it to `NotInWord`, and leaves entry 5
unchanged. -/
theorem merge_overwrites_witness :
    (merge_spot (List.replicate 26 (some LetterStatus.Correct))
        ⟨'A', LetterStatus.NotInWord⟩).getD 0 none = some LetterStatus.NotInWord ∧
    (merge_spot (List.replicate 26 (some LetterStatus.Correct))
        ⟨'A', LetterStatus.NotInWord⟩).getD 5 none = some LetterStatus.Correct := by
  have h := merge_overwrites (List.replicate 26 (some LetterStatus.Correct))
    ⟨'A', LetterStatus.NotInWord⟩ (by decide) (by decide)
  exact ⟨h.1, by rw [h.2 5 (by decide)]; decide⟩

/-! ## C6: TypeChar has no length guard -/

/-- C6 counterexample: with the input buffer already holding the 5
characters `ABCDE`, typing `F` is not ignored — the buffer grows to
`ABCDEF`, so the state changes. -/
theorem typechar_no_guard_cx :
    (run (App.new "CRANE".toList [] 0)
        [Key.char 'A', Key.char 'B', Key.char 'C', Key.char 'D',
         Key.char 'E']).input.length = 5 ∧
    (step (run (App.new "CRANE".toList [] 0)
        [Key.char 'A', Key.char 'B', Key.char 'C', Key.char 'D',
         Key.char 'E']) (Key.char 'F')).input = "ABCDEF".toList := by
  exact ⟨by decide, by decide⟩

/-- C6 (amended): for every in-progress state and character `c`, the
TypeChar command appends the ASCII uppercase of `c` to the input buffer
unconditionally — the source has no buffer-length guard, so this happens
even when the buffer already holds 5 or more characters. -/
theorem typechar_appends (a : App) (c : Char) (h : phase a = Phase.InProgress) :
    step a (Key.char c) = { a with input := a.input ++ [to_ascii_uppercase c] } := by
  exact step_inProgress h (Key.char c)

/-- C6 witness: the amended rule applied to a concrete full buffer. -/
theorem typechar_appends_witness :
    (step (run (App.new "CRANE".toList [] 0)
        [Key.char 'A', Key.char 'B', Key.char 'C', Key.char 'D',
         Key.char 'E']) (Key.char 'f')).input = "ABCDEF".toList := by
  rw [typechar_appends _ 'f' (by decide)]
  decide

/-! ## C4: invalid submissions are rejected atomically -/

/-- C4: for every in-progress state whose input buffer does not have byte
length 5 or is not in the allow-list, Submit only sets the rejection
message: guesses, attempt count, input buffer, alphabet summary and the
win flag are untouched, and the game stays in progress. -/
theorem submit_invalid_spec (a : App)
    (hphase : phase a = Phase.InProgress)
    (hbad : utf8Len a.input ≠ 5 ∨ a.input ∉ a.allowed_guesses) :
    step a Key.enter = { a with message := some invalidMessage } ∧
    phase (step a Key.enter) = Phase.InProgress := by
  have hstep : step a Key.enter = submit a := step_inProgress hphase Key.enter
  have hsub : submit a = { a with message := some invalidMessage } := by
    unfold submit
    rw [if_pos hbad]
  rw [hstep, hsub]
  exact ⟨rfl, hphase⟩

/-- C4 witness: in a fresh game with secret `CRANE`, typing `CAT` and
submitting is rejected with the message set and nothing else changed. -/
theorem submit_invalid_spec_witness :
    step (run (App.new "CRANE".toList ["CRANE".toList] 0)
        [Key.char 'C', Key.char 'A', Key.char 'T']) Key.enter =
      { run (App.new "CRANE".toList ["CRANE".toList] 0)
          [Key.char 'C', Key.char 'A', Key.char 'T'] with
        message := some invalidMessage } := by
  exact (submit_invalid_spec _ (by decide) (by decide)).1

/-! ## C3: accepted submissions -/

/-- C3 counterexample: submitting the winning guess `CRANE` leaves the
input buffer holding `CRANE` (it is not cleared) and leaves the alphabet
summary untouched (entry 2, letter `C`, is still unknown even though the
guess's Spot for `C` is `Correct`) — the source `continue`s out of the
submit branch before those two updates. -/
theorem submit_win_path_cx :
    phase (run (App.new "CRANE".toList ["CRANE".toList] 0)
        [Key.char 'C', Key.char 'R', Key.char 'A', Key.char 'N', Key.char 'E',
         Key.enter]) = Phase.Won ∧
    (run (App.new "CRANE".toList ["CRANE".toList] 0)
        [Key.char 'C', Key.char 'R', Key.char 'A', Key.char 'N', Key.char 'E',
         Key.enter]).input = "CRANE".toList ∧
    (run (App.new "CRANE".toList ["CRANE".toList] 0)
        [Key.char 'C', Key.char 'R', Key.char 'A', Key.char 'N', Key.char 'E',
         Key.enter]).alphabet_statuses.getD 2 none = none := by
  exact ⟨by decide, by decide, by decide⟩

/-- C3 (amended): for every in-progress state whose input buffer has byte
length 5 and is in the allow-list, Submit clears the rejection message,
appends the Evaluator's result to the guess history and increments the
attempt count; if the input equals the secret it transitions to `Won`
while keeping the input buffer and the alphabet summary unchanged;
otherwise it merges the new guess's Spots into the alphabet summary,
clears the input buffer, and is `Lost` exactly when the attempt count
reaches 6, else stays `InProgress`.  A winning guess on attempt 3 yields
`Won` with attempts equal to 3. -/
theorem submit_valid_spec (a : App)
    (hphase : phase a = Phase.InProgress)
    (hlen : utf8Len a.input = 5)
    (hmem : a.input ∈ a.allowed_guesses) :
    (step a Key.enter).message = none ∧
    (step a Key.enter).guesses = a.guesses ++ [get_spots a.input a.word] ∧
    (step a Key.enter).attempts = a.attempts + 1 ∧
    (a.input = a.word →
      (step a Key.enter).win = true ∧
      phase (step a Key.enter) = Phase.Won ∧
      (step a Key.enter).input = a.input ∧
      (step a Key.enter).alphabet_statuses = a.alphabet_statuses) ∧
    (a.input ≠ a.word →
      (step a Key.enter).input = [] ∧
      (step a Key.enter).alphabet_statuses =
        merge_spots a.alphabet_statuses (get_spots a.input a.word) ∧
      phase (step a Key.enter) =
        (if a.attempts + 1 = 6 then Phase.Lost else Phase.InProgress)) ∧
    (a.attempts = 2 → a.input = a.word →
      phase (step a Key.enter) = Phase.Won ∧ (step a Key.enter).attempts = 3) := by
  have hwin : a.win = false := by
    have h := phase_inProgress_iff.mp hphase
    push_neg at h
    simpa using h.2
  have hstep : step a Key.enter = submit a := step_inProgress hphase Key.enter
  rw [hstep, submit_valid_eq hlen hmem]
  by_cases hw : a.input = a.word
  · rw [if_pos hw]
    refine ⟨rfl, rfl, rfl, fun _ => ⟨rfl, phase_won_iff.mpr rfl, rfl, rfl⟩,
      fun hn => absurd hw hn, fun h2 _ => ⟨phase_won_iff.mpr rfl, ?_⟩⟩
    simp [h2]
  · rw [if_neg hw]
    refine ⟨rfl, rfl, rfl, fun heq => absurd heq hw,
      fun _ => ⟨rfl, rfl, ?_⟩, fun _ heq => absurd heq hw⟩
    simp only [phase, hwin]
    rfl

/-- C3 witness: two rejected-free wrong guesses of `SLATE` then the
winning guess `CRANE` on attempt 3 → `Won` with attempts = 3. -/
theorem submit_valid_spec_witness :
    phase (step (run (App.new "CRANE".toList ["SLATE".toList, "CRANE".toList] 0)
        [Key.char 'S', Key.char 'L', Key.char 'A', Key.char 'T', Key.char 'E',
         Key.enter,
         Key.char 'S', Key.char 'L', Key.char 'A', Key.char 'T', Key.char 'E',
         Key.enter,
         Key.char 'C', Key.char 'R', Key.char 'A', Key.char 'N', Key.char 'E'])
        Key.enter) = Phase.Won ∧
    (step (run (App.new "CRANE".toList ["SLATE".toList, "CRANE".toList] 0)
        [Key.char 'S', Key.char 'L', Key.char 'A', Key.char 'T', Key.char 'E',
         Key.enter,
         Key.char 'S', Key.char 'L', Key.char 'A', Key.char 'T', Key.char 'E',
         Key.enter,
         Key.char 'C', Key.char 'R', Key.char 'A', Key.char 'N', Key.char 'E'])
        Key.enter).attempts = 3 := by
  exact (submit_valid_spec _ (by decide) (by decide) (by decide)).2.2.2.2.2
    (by decide) (by decide)

/-! ## C1: the evaluator -/

lemma mk_spot_char_spec (w : List Char) (i : Nat) (c d : Char)
    (hb : byteAsChar w i = d) :
    ((mk_spot w i c).status = LetterStatus.Correct ↔ c = d) ∧
    (c ≠ d → (mk_spot w i c).status =
      (if c ∈ w then LetterStatus.Incorrect else LetterStatus.NotInWord)) := by
  subst hb
  unfold mk_spot
  by_cases h1 : c = byteAsChar w i
  · simp [h1, Spot.correct]
  · by_cases h2 : c ∈ w <;>
      simp [h1, h2, Spot.correct, Spot.incorrect, Spot.not_in_word]

/-- C1: for 5-letter uppercase ASCII guess `G` and secret `S`, the
evaluator produces exactly 5 spots; spot `i` carries letter `G[i]`, has
status `Correct` iff `G[i] = S[i]`, and otherwise has status `Incorrect`
when `S` contains `G[i]` anywhere (plain containment, not
frequency-aware — so a repeated guess letter is `Incorrect` at every
non-correct occurrence) and `NotInWord` when it does not. -/
theorem evaluator_spec (G S : List Char)
    (hG : G.length = 5) (hS : S.length = 5)
    (hGu : ∀ c ∈ G, 65 ≤ c.toNat ∧ c.toNat ≤ 90)
    (hSu : ∀ c ∈ S, 65 ≤ c.toNat ∧ c.toNat ≤ 90) :
    (get_spots G S).length = 5 ∧
    ∀ i, i < 5 →
      ((get_spots G S).getD i Spot.default).letter = G.getD i (Char.ofNat 0) ∧
      (((get_spots G S).getD i Spot.default).status = LetterStatus.Correct ↔
        G.getD i (Char.ofNat 0) = S.getD i (Char.ofNat 0)) ∧
      (G.getD i (Char.ofNat 0) ≠ S.getD i (Char.ofNat 0) →
        ((get_spots G S).getD i Spot.default).status =
          (if G.getD i (Char.ofNat 0) ∈ S then LetterStatus.Incorrect
           else LetterStatus.NotInWord)) := by
  obtain ⟨g0, g1, g2, g3, g4, rfl⟩ := list_len5 hG
  obtain ⟨s0, s1, s2, s3, s4, rfl⟩ := list_len5 hS
  have hlt : ∀ c ∈ [s0, s1, s2, s3, s4], c.toNat < 128 := by
    intro c hc
    have := hSu c hc
    omega
  obtain ⟨hb0, hb1, hb2, hb3, hb4⟩ :=
    byteAsChar_five_ascii (hlt s0 (by simp)) (hlt s1 (by simp))
      (hlt s2 (by simp)) (hlt s3 (by simp)) (hlt s4 (by simp))
  rw [get_spots_five]
  refine ⟨rfl, ?_⟩
  intro i hi
  interval_cases i
  · exact ⟨mk_spot_letter _ _ _, (mk_spot_char_spec _ _ _ _ hb0).1,
      (mk_spot_char_spec _ _ _ _ hb0).2⟩
  · exact ⟨mk_spot_letter _ _ _, (mk_spot_char_spec _ _ _ _ hb1).1,
      (mk_spot_char_spec _ _ _ _ hb1).2⟩
  · exact ⟨mk_spot_letter _ _ _, (mk_spot_char_spec _ _ _ _ hb2).1,
      (mk_spot_char_spec _ _ _ _ hb2).2⟩
  · exact ⟨mk_spot_letter _ _ _, (mk_spot_char_spec _ _ _ _ hb3).1,
      (mk_spot_char_spec _ _ _ _ hb3).2⟩
  · exact ⟨mk_spot_letter _ _ _, (mk_spot_char_spec _ _ _ _ hb4).1,
      (mk_spot_char_spec _ _ _ _ hb4).2⟩

/-- C1 witness: guess `CRATE` against secret `CRANE` — position 0 is
`Correct` (`C` matches) and position 3 is `NotInWord` (the secret has no
`T`). -/
theorem evaluator_spec_witness :
    ((get_spots "CRATE".toList "CRANE".toList).getD 0 Spot.default).status
        = LetterStatus.Correct ∧
    ((get_spots "CRATE".toList "CRANE".toList).getD 3 Spot.default).status
        = LetterStatus.NotInWord := by
  have h := evaluator_spec "CRATE".toList "CRANE".toList (by decide) (by decide)
    (by decide) (by decide)
  constructor
  · exact ((h.2 0 (by decide)).2.1).mpr (by decide)
  · have h3 := (h.2 3 (by decide)).2.2 (by decide)
    rw [h3]
    decide

/-! ## C5: global invariants of the state machine -/

lemma submit_preserves_inv {a : App}
    (h1 : a.attempts = a.guesses.length) (h2 : a.attempts ≤ 6)
    (h3 : ∀ g ∈ a.guesses, g.length = 5) (hne : a.attempts ≠ 6) :
    (submit a).attempts = (submit a).guesses.length ∧
    (submit a).attempts ≤ 6 ∧
    (∀ g ∈ (submit a).guesses, g.length = 5) ∧
    (submit a).word = a.word := by
  unfold submit
  split
  · exact ⟨h1, h2, h3, rfl⟩
  · have hg : ∀ g ∈ a.guesses ++ [get_spots a.input a.word], g.length = 5 := by
      intro g hg
      rcases List.mem_append.mp hg with hmem | hmem
      · exact h3 g hmem
      · rw [List.mem_singleton.mp hmem]
        exact get_spots_length _ _
    have hlen : a.attempts + 1 = (a.guesses ++ [get_spots a.input a.word]).length := by
      rw [List.length_append, List.length_singleton, h1]
    split
    · refine ⟨hlen, ?_, hg, rfl⟩
      show a.attempts + 1 ≤ 6
      omega
    · refine ⟨hlen, ?_, hg, rfl⟩
      show a.attempts + 1 ≤ 6
      omega

lemma step_preserves_inv {a : App} (k : Key)
    (h1 : a.attempts = a.guesses.length) (h2 : a.attempts ≤ 6)
    (h3 : ∀ g ∈ a.guesses, g.length = 5) :
    (step a k).attempts = (step a k).guesses.length ∧
    (step a k).attempts ≤ 6 ∧
    (∀ g ∈ (step a k).guesses, g.length = 5) ∧
    (step a k).word = a.word := by
  unfold step
  split
  · exact ⟨h1, h2, h3, rfl⟩
  · rename_i hgate
    have hne : a.attempts ≠ 6 := fun h => hgate (Or.inl h)
    cases k with
    | enter => exact submit_preserves_inv h1 h2 h3 hne
    | char c => exact ⟨h1, h2, h3, rfl⟩
    | backspace => exact ⟨h1, h2, h3, rfl⟩
    | esc => exact ⟨h1, h2, h3, rfl⟩
    | other => exact ⟨h1, h2, h3, rfl⟩

lemma reachable_inv {w : List Char} {allowed : List (List Char)} {idx : Nat}
    {a : App} (h : Reachable w allowed idx a) :
    a.attempts = a.guesses.length ∧ a.attempts ≤ 6 ∧
    (∀ g ∈ a.guesses, g.length = 5) ∧ a.word = w := by
  induction h with
  | init => exact ⟨rfl, Nat.zero_le 6, by simp [App.new], rfl⟩
  | step hr k ih =>
      obtain ⟨i1, i2, i3, i4⟩ := ih
      obtain ⟨j1, j2, j3, j4⟩ := step_preserves_inv k i1 i2 i3
      exact ⟨j1, j2, j3, j4.trans i4⟩

lemma reachable_run (w : List Char) (allowed : List (List Char)) (idx : Nat)
    (ks : List Key) :
    Reachable w allowed idx (run (App.new w allowed idx) ks) := by
  suffices h : ∀ (ks : List Key) (a : App), Reachable w allowed idx a →
      Reachable w allowed idx (run a ks) from
    h ks _ Reachable.init
  intro ks
  induction ks with
  | nil => intro a ha; exact ha
  | cons k ks ih => intro a ha; exact ih _ (Reachable.step ha k)

/-- C5: in every reachable state the attempt count equals the guess
history length and is at most 6; once the phase is terminal every key
event (a 7th Submit included) leaves the state unchanged; the phase
becomes `Won` exactly through a Submit whose input equals the secret and
`Lost` exactly when the attempt count reaches 6 (a valid non-matching
guess on attempt 6 produces it, and a `Lost` phase always has attempt
count 6). -/
theorem game_invariants (word : List Char) (allowed : List (List Char)) (idx : Nat)
    (a : App) (ha : Reachable word allowed idx a) :
    a.attempts = a.guesses.length ∧
    a.attempts ≤ 6 ∧
    (phase a ≠ Phase.InProgress → ∀ k, step a k = a) ∧
    (∀ k, phase a = Phase.InProgress → phase (step a k) = Phase.Won →
      k = Key.enter ∧ a.input = a.word) ∧
    (∀ k, phase (step a k) = Phase.Lost → (step a k).attempts = 6) ∧
    (phase a = Phase.InProgress → utf8Len a.input = 5 →
      a.input ∈ a.allowed_guesses → a.input = a.word →
      phase (step a Key.enter) = Phase.Won) ∧
    (phase a = Phase.InProgress → utf8Len a.input = 5 →
      a.input ∈ a.allowed_guesses → a.input ≠ a.word → a.attempts = 5 →
      phase (step a Key.enter) = Phase.Lost) := by
  obtain ⟨i1, i2, _, _⟩ := reachable_inv ha
  refine ⟨i1, i2, ?_, ?_, fun k hlost => (phase_lost_iff.mp hlost).2, ?_, ?_⟩
  · intro hterm k
    exact step_terminal (not_not.mp ((not_iff_not.mpr phase_inProgress_iff).mp hterm)) k
  · intro k hin hwon
    have hwin : a.win = false := by
      have h := phase_inProgress_iff.mp hin
      push_neg at h
      simpa using h.2
    have hw' : (step a k).win = true := phase_won_iff.mp hwon
    rw [step_inProgress hin] at hw'
    cases k with
    | enter =>
        refine ⟨rfl, ?_⟩
        by_cases hv : utf8Len a.input ≠ 5 ∨ a.input ∉ a.allowed_guesses
        · unfold submit at hw'
          rw [if_pos hv] at hw'
          have hcontra : a.win = true := hw'
          rw [hwin] at hcontra
          exact absurd hcontra (by decide)
        · push_neg at hv
          rw [submit_valid_eq hv.1 hv.2] at hw'
          by_cases hiw : a.input = a.word
          · exact hiw
          · rw [if_neg hiw] at hw'
            have hcontra : a.win = true := hw'
            rw [hwin] at hcontra
            exact absurd hcontra (by decide)
    | char c =>
        have hcontra : a.win = true := hw'
        rw [hwin] at hcontra
        exact absurd hcontra (by decide)
    | backspace =>
        have hcontra : a.win = true := hw'
        rw [hwin] at hcontra
        exact absurd hcontra (by decide)
    | esc =>
        have hcontra : a.win = true := hw'
        rw [hwin] at hcontra
        exact absurd hcontra (by decide)
    | other =>
        have hcontra : a.win = true := hw'
        rw [hwin] at hcontra
        exact absurd hcontra (by decide)
  · intro hin hl hm hw
    have hstep : step a Key.enter = submit a := step_inProgress hin Key.enter
    rw [hstep, submit_valid_eq hl hm, if_pos hw]
    exact phase_won_iff.mpr rfl
  · intro hin hl hm hw h5
    have hwin : a.win = false := by
      have h := phase_inProgress_iff.mp hin
      push_neg at h
      simpa using h.2
    have hstep : step a Key.enter = submit a := step_inProgress hin Key.enter
    rw [hstep, submit_valid_eq hl hm, if_neg hw]
    refine phase_lost_iff.mpr ⟨hwin, ?_⟩
    show a.attempts + 1 = 6
    omega

set_option maxRecDepth 10000 in
/-- C5 witness: six valid non-matching guesses of `SLATE` against secret
`CRANE` reach attempts = 6 (`Lost`), and a 7th Submit leaves the state
unchanged. -/
theorem game_invariants_witness :
    (run (App.new "CRANE".toList ["SLATE".toList] 0)
        [Key.char 'S', Key.char 'L', Key.char 'A', Key.char 'T', Key.char 'E',
         Key.enter,
         Key.char 'S', Key.char 'L', Key.char 'A', Key.char 'T', Key.char 'E',
         Key.enter,
         Key.char 'S', Key.char 'L', Key.char 'A', Key.char 'T', Key.char 'E',
         Key.enter,
         Key.char 'S', Key.char 'L', Key.char 'A', Key.char 'T', Key.char 'E',
         Key.enter,
         Key.char 'S', Key.char 'L', Key.char 'A', Key.char 'T', Key.char 'E',
         Key.enter,
         Key.char 'S', Key.char 'L', Key.char 'A', Key.char 'T', Key.char 'E',
         Key.enter]).attempts = 6 ∧
    step (run (App.new "CRANE".toList ["SLATE".toList] 0)
        [Key.char 'S', Key.char 'L', Key.char 'A', Key.char 'T', Key.char 'E',
         Key.enter,
         Key.char 'S', Key.char 'L', Key.char 'A', Key.char 'T', Key.char 'E',
         Key.enter,
         Key.char 'S', Key.char 'L', Key.char 'A', Key.char 'T', Key.char 'E',
         Key.enter,
         Key.char 'S', Key.char 'L', Key.char 'A', Key.char 'T', Key.char 'E',
         Key.enter,
         Key.char 'S', Key.char 'L', Key.char 'A', Key.char 'T', Key.char 'E',
         Key.enter,
         Key.char 'S', Key.char 'L', Key.char 'A', Key.char 'T', Key.char 'E',
         Key.enter]) Key.enter =
      run (App.new "CRANE".toList ["SLATE".toList] 0)
        [Key.char 'S', Key.char 'L', Key.char 'A', Key.char 'T', Key.char 'E',
         Key.enter,
         Key.char 'S', Key.char 'L', Key.char 'A', Key.char 'T', Key.char 'E',
         Key.enter,
         Key.char 'S', Key.char 'L', Key.char 'A', Key.char 'T', Key.char 'E',
         Key.enter,
         Key.char 'S', Key.char 'L', Key.char 'A', Key.char 'T', Key.char 'E',
         Key.enter,
         Key.char 'S', Key.char 'L', Key.char 'A', Key.char 'T', Key.char 'E',
         Key.enter,
         Key.char 'S', Key.char 'L', Key.char 'A', Key.char 'T', Key.char 'E',
         Key.enter] := by
  have h := game_invariants "CRANE".toList ["SLATE".toList] 0 _
    (reachable_run "CRANE".toList ["SLATE".toList] 0
      [Key.char 'S', Key.char 'L', Key.char 'A', Key.char 'T', Key.char 'E',
       Key.enter,
       Key.char 'S', Key.char 'L', Key.char 'A', Key.char 'T', Key.char 'E',
       Key.enter,
       Key.char 'S', Key.char 'L', Key.char 'A', Key.char 'T', Key.char 'E',
       Key.enter,
       Key.char 'S', Key.char 'L', Key.char 'A', Key.char 'T', Key.char 'E',
       Key.enter,
       Key.char 'S', Key.char 'L', Key.char 'A', Key.char 'T', Key.char 'E',
       Key.enter,
       Key.char 'S', Key.char 'L', Key.char 'A', Key.char 'T', Key.char 'E',
       Key.enter])
  exact ⟨by decide, h.2.2.1 (by decide) Key.enter⟩

/-! ## C7: the shareable result summary -/

lemma enumFrom_copy_rows (l : List (List Char)) :
    ∀ n : Nat,
      (l.enumFrom (n + 1)).map
        (fun p => p.2 ++ ['\n'] ++ (if p.1 = 0 then ['\n'] else [])) =
      l.map (fun r => r ++ ['\n']) := by
  induction l with
  | nil => intro n; rfl
  | cons r l ih =>
      intro n
      simp only [List.enumFrom_cons, List.map_cons]
      rw [ih (n + 1)]
      simp

lemma copy_text_eq (a : App) :
    copy_text a =
      ("Wordle " ++ toString (a.index + 1) ++ " " ++ toString a.attempts ++ "/6").toList
        ++ '\n' :: '\n' ::
        (a.guesses.map
          (fun g => g.map (fun s => emoji_from_status s.status) ++ ['\n'])).flatten := by
  unfold copy_text result_text_spans
  simp only [List.enum, List.enumFrom_cons, List.map_cons, List.flatten_cons]
  rw [show (1 : Nat) = 0 + 1 from rfl, enumFrom_copy_rows]
  simp [List.map_map, Function.comp_def, List.append_assoc]

/-- C7: for every reachable terminal state, the clipboard text is the
header line `Wordle <index+1> <attempts>/6`, a blank line, then one
newline-terminated row per submitted guess in submission order, each row
mapping the guess's spots positionally through `emoji_from_status`; every
row has exactly 5 glyphs and the number of rows equals the attempt
count. -/
theorem result_summary_spec (word : List Char) (allowed : List (List Char)) (idx : Nat)
    (a : App) (ha : Reachable word allowed idx a)
    (_hterm : phase a ≠ Phase.InProgress) :
    copy_text a =
      ("Wordle " ++ toString (a.index + 1) ++ " " ++ toString a.attempts ++ "/6").toList
        ++ '\n' :: '\n' ::
        (a.guesses.map
          (fun g => g.map (fun s => emoji_from_status s.status) ++ ['\n'])).flatten ∧
    (∀ g ∈ a.guesses, (g.map (fun s => emoji_from_status s.status)).length = 5) ∧
    a.guesses.length = a.attempts := by
  obtain ⟨i1, _, i3, _⟩ := reachable_inv ha
  exact ⟨copy_text_eq a, fun g hg => by simp [i3 g hg], i1.symm⟩

/-- C7 witness: a game won with the single guess `CRANE` produces exactly
`Wordle 1 1/6`, a blank line, and one all-green 5-glyph row. -/
theorem result_summary_spec_witness :
    copy_text (run (App.new "CRANE".toList ["CRANE".toList] 0)
        [Key.char 'C', Key.char 'R', Key.char 'A', Key.char 'N', Key.char 'E',
         Key.enter]) = "Wordle 1 1/6\n\n🟩🟩🟩🟩🟩\n".toList := by
  have h := result_summary_spec "CRANE".toList ["CRANE".toList] 0 _
    (reachable_run "CRANE".toList ["CRANE".toList] 0
      [Key.char 'C', Key.char 'R', Key.char 'A', Key.char 'N', Key.char 'E',
       Key.enter]) (by decide)
  rw [h.1]
  decide

/-! ## C9: the summary update's frame -/

lemma merge_spots_getD_ne (j : Nat) :
    ∀ (spots : List Spot) (st : List (Option LetterStatus)),
      (∀ s ∈ spots, (letter_to_index s.letter).getD 0 ≠ j) →
      (merge_spots st spots).getD j none = st.getD j none := by
  intro spots
  induction spots with
  | nil => intro st _; rfl
  | cons s spots ih =>
      intro st hs
      have h1 : (letter_to_index s.letter).getD 0 ≠ j :=
        hs s (List.mem_cons_self _ _)
      have h2 : ∀ x ∈ spots, (letter_to_index x.letter).getD 0 ≠ j :=
        fun x hx => hs x (List.mem_cons_of_mem _ hx)
      show (merge_spots (merge_spot st s) spots).getD j none = _
      rw [ih _ h2]
      unfold merge_spot
      rw [List.getD_eq_getElem?_getD, List.getD_eq_getElem?_getD,
        List.getElem?_set_ne h1]

/-- C9 counterexample: the allow-list may contain a 5-byte string with a
non-alphabetic character, and for such an accepted guess the source's
`unwrap_or_default` sends the non-letter to index 0, clobbering the entry
of letter `A`.  Secret `QQQQQ`, accepted guess `BCDE!`: `A` (upper or
lower case) does not occur in the guess, its entry was unknown before the
Submit, yet afterwards it is `NotInWord`. -/
theorem submit_frame_cx :
    'A' ∉ "BCDE!".toList ∧ 'a' ∉ "BCDE!".toList ∧
    (App.new "QQQQQ".toList ["BCDE!".toList] 0).alphabet_statuses.getD 0 none
      = none ∧
    (run (App.new "QQQQQ".toList ["BCDE!".toList] 0)
        [Key.char 'B', Key.char 'C', Key.char 'D', Key.char 'E', Key.char '!',
         Key.enter]).attempts = 1 ∧
    (run (App.new "QQQQQ".toList ["BCDE!".toList] 0)
        [Key.char 'B', Key.char 'C', Key.char 'D', Key.char 'E', Key.char '!',
         Key.enter]).alphabet_statuses.getD 0 none
      = some LetterStatus.NotInWord := by
  exact ⟨by decide, by decide, by decide, by decide, by decide⟩

/-- C9 (amended): for every accepted guess consisting only of ASCII
alphabetic characters, Submit leaves the summary entry of every alphabet
index that no character of the guess maps to exactly as it was —
including the unknown (`none`) state.  (Without the all-alphabetic
restriction the claim fails: a non-letter character in an accepted guess
is defaulted to index 0 and overwrites letter `A`'s entry.) -/
theorem submit_frame (a : App)
    (hphase : phase a = Phase.InProgress)
    (hlen : utf8Len a.input = 5)
    (hmem : a.input ∈ a.allowed_guesses)
    (halpha : ∀ c ∈ a.input, is_alphabetic c = true)
    (j : Nat)
    (hj : ∀ c ∈ a.input, letter_to_index c ≠ some j) :
    (step a Key.enter).alphabet_statuses.getD j none
      = a.alphabet_statuses.getD j none := by
  have hstep : step a Key.enter = submit a := step_inProgress hphase Key.enter
  rw [hstep, submit_valid_eq hlen hmem]
  by_cases hw : a.input = a.word
  · rw [if_pos hw]
  · rw [if_neg hw]
    show (merge_spots a.alphabet_statuses (get_spots a.input a.word)).getD j none = _
    apply merge_spots_getD_ne
    have hascii : ∀ c ∈ a.input, c.toNat < 128 := by
      intro c hc
      have := is_alphabetic_iff.mp (halpha c hc)
      omega
    have hchars : a.input.length = 5 := by
      rw [← utf8Len_ascii hascii]
      exact hlen
    obtain ⟨g0, g1, g2, g3, g4, heq⟩ := list_len5 hchars
    rw [heq, get_spots_five]
    intro s hs
    have hletter : s.letter ∈ a.input := by
      rw [heq]
      simp only [List.mem_cons, List.not_mem_nil, or_false] at hs
      rcases hs with rfl | rfl | rfl | rfl | rfl <;>
        rw [mk_spot_letter] <;> simp
    obtain ⟨hidx, _⟩ := letter_to_index_alpha (halpha s.letter hletter)
    have hne := hj s.letter hletter
    rw [hidx] at hne ⊢
    simp only [Option.getD_some]
    intro hcontra
    exact hne (by rw [hcontra])

/-- C9 witness: submitting the all-alphabetic guess `SLATE` against
secret `CRANE` leaves the summary entry of `B` (index 1) unchanged. -/
theorem submit_frame_witness :
    (step (run (App.new "CRANE".toList ["SLATE".toList] 0)
        [Key.char 'S', Key.char 'L', Key.char 'A', Key.char 'T', Key.char 'E'])
        Key.enter).alphabet_statuses.getD 1 none
      = (run (App.new "CRANE".toList ["SLATE".toList] 0)
          [Key.char 'S', Key.char 'L', Key.char 'A', Key.char 'T',
           Key.char 'E']).alphabet_statuses.getD 1 none := by
  exact submit_frame _ (by decide) (by decide) (by decide) (by decide) 1 (by decide)

/-! ## C10: letter_to_index and in-bounds summary updates -/

lemma alphabets_getD (m : Nat) (h65 : 65 ≤ m) (h90 : m ≤ 90) (x : Char)
    (hx : x.toNat = m) : ALPHABETS.getD (m - 65) '?' = x := by
  have hofNat := Char.ofNat_toNat x
  rw [hx] at hofNat
  rw [← hofNat]
  interval_cases m <;> decide

/-- C10: for every ASCII alphabetic character `c`, `letter_to_index c` is
`some i` with `i` the zero-based position of `c`'s uppercase form in the
English alphabet (`ALPHABETS[i]` is that letter) and `i < 26`; hence the
summary write performed on Submit for an alphabetic letter always hits a
valid index of the 26-entry status array and preserves its length. -/
theorem letter_to_index_spec (c : Char) (h : is_alphabetic c = true) :
    letter_to_index c = some ((to_ascii_uppercase c).toNat - 65) ∧
    (to_ascii_uppercase c).toNat - 65 < 26 ∧
    ALPHABETS.getD ((to_ascii_uppercase c).toNat - 65) '?' = to_ascii_uppercase c ∧
    ∀ (st : LetterStatus) (statuses : List (Option LetterStatus)),
      statuses.length = 26 →
      (letter_to_index c).getD 0 < statuses.length ∧
      (merge_spot statuses ⟨c, st⟩).length = 26 := by
  obtain ⟨h1, h2⟩ := letter_to_index_alpha h
  obtain ⟨hb1, hb2⟩ := to_ascii_uppercase_bounds h
  refine ⟨h1, h2, alphabets_getD _ hb1 hb2 _ rfl, ?_⟩
  intro st statuses hlen
  constructor
  · rw [h1]
    simpa [hlen] using h2
  · unfold merge_spot
    rw [List.length_set]
    exact hlen

/-- C10 witness: `letter_to_index 'k' = some 10`, the index is in bounds,
and a concrete summary write at `k` preserves the 26-entry length. -/
theorem letter_to_index_spec_witness :
    letter_to_index 'k' = some 10 ∧
    (letter_to_index 'k').getD 0 < 26 ∧
    (merge_spot (List.replicate 26 none)
      ⟨'k', LetterStatus.Incorrect⟩).length = 26 := by
  have h := letter_to_index_spec 'k' (by decide)
  have h4 := h.2.2.2 LetterStatus.Incorrect (List.replicate 26 none) (by decide)
  exact ⟨h.1, by simpa using h4.1, h4.2⟩

end Wordle
